import Mathlib

/-!
Verification of the MCVI planner core (belief-expansion tree, Monte-Carlo
backup, FSC store) against its natural-language specification.  The
definitions below are a shallow embedding of the C++ sources
(`src/AlphaVectorFSC.cpp`, `src/MCVI.cpp`, `src/BeliefTree.cpp`), with machine
doubles rendered as exact rationals, `int64_t` identifiers as `ℤ`, and the
simulator's internal randomness fixed to one deterministic realisation
(a `Sim` value).  Unordered maps are rendered as association lists; where the
source compares whole maps for equality, the maps involved are kept in a
canonical key-sorted form so that list equality coincides with map equality.
-/

namespace MCVI

/-- Result of one simulator step: next state, observation, reward, terminal
flag.  Mirrors the tuple returned by `SimInterface::Step`. -/
structure StepResult where
  sNext : ℤ
  obs : ℤ
  reward : ℚ
  done : Bool
deriving DecidableEq

/-- Deterministic black-box POMDP simulator (the `SimInterface` operations the
core consumes: `Step`, `GetDiscount`, `GetSizeOfA`).  Randomness inside `Step`
is the simulator's responsibility; the embedding fixes one deterministic
realisation, as the claims about rollouts assume a deterministic simulator. -/
structure Sim where
  step : ℤ → ℤ → StepResult
  gamma : ℚ
  numActions : ℕ

/-- Lookup in an association list keyed by `ℤ` (models `unordered_map::find`). -/
def alookup {α : Type} (k : ℤ) : List (ℤ × α) → Option α
  | [] => none
  | kv :: rest => if k = kv.1 then some kv.2 else alookup k rest

/-- Model of `m[k] += v` on an association list (models `unordered_map::operator[] +=`
with value-initialised missing entries). -/
def addTo (m : List (ℤ × ℚ)) (k : ℤ) (v : ℚ) : List (ℤ × ℚ) :=
  match m with
  | [] => [(k, v)]
  | kv :: rest => if k = kv.1 then (kv.1, kv.2 + v) :: rest else kv :: addTo rest k v

/-- Total probability mass of a distribution represented as an association
list. -/
def massOf (b : List (ℤ × ℚ)) : ℚ := (b.map Prod.snd).sum

/-- Key-sorted insert-or-assign.  Edge maps built through this function are in
canonical (strictly increasing key) form, so structural equality of the lists
coincides with equality of the finite maps they represent; this models
`unordered_map::operator[] =` together with `unordered_map::operator==`. -/
def insertSorted (k v : ℤ) : List (ℤ × ℤ) → List (ℤ × ℤ)
  | [] => [(k, v)]
  | kv :: rest =>
    if k < kv.1 then (k, v) :: kv :: rest
    else if k = kv.1 then (k, v) :: rest
    else kv :: insertSorted k v rest

/-- FSC node: the action to execute while occupying the node, plus the lazily
grown state-to-value cache (`AlphaVectorNode` with its `_alpha` table). -/
structure AlphaVectorNode where
  bestAction : ℤ
  alpha : List (ℤ × ℚ)
deriving DecidableEq

/-- Observation-labelled edge map of one FSC node, in canonical key-sorted
form. -/
abbrev EdgeMap := List (ℤ × ℤ)

/-- FSC store (`AlphaVectorFSC`): dense sequence of nodes plus a parallel
table of edge maps.  In the source `_edges` is presized and every slot starts
as the empty map; it is modelled as a total map defaulting to `[]`. -/
structure AlphaVectorFSC where
  nodes : List AlphaVectorNode
  edges : ℤ → EdgeMap

/-- Number of nodes in the store (`AlphaVectorFSC::NumNodes`). -/
def AlphaVectorFSC.NumNodes (f : AlphaVectorFSC) : ℕ := f.nodes.length

/-- Node access (`AlphaVectorFSC::GetNode`); valid indices are `0 ≤ nI <
NumNodes`, out-of-range access (undefined behaviour in the source) is
totalised with a default node. -/
def AlphaVectorFSC.GetNode (f : AlphaVectorFSC) (nI : ℤ) : AlphaVectorNode :=
  f.nodes.getD nI.toNat ⟨0, []⟩

/-- Edge-map access (`AlphaVectorFSC::GetEdges`). -/
def AlphaVectorFSC.GetEdges (f : AlphaVectorFSC) (nI : ℤ) : EdgeMap := f.edges nI

/-- Model of `AlphaVectorFSC::GetEdgeValue`: the successor node for an observation, or
`-1` (unset) when the node has no edge for it. -/
def AlphaVectorFSC.GetEdgeValue (f : AlphaVectorFSC) (nI o : ℤ) : ℤ :=
  (alookup o (f.GetEdges nI)).getD (-1)

/-- Model of `AlphaVectorFSC::AddNode`: append a node, returning its dense index.  The
edge table is untouched (the slot keeps its initial empty map). -/
def AlphaVectorFSC.AddNode (f : AlphaVectorFSC) (n : AlphaVectorNode) :
    ℕ × AlphaVectorFSC :=
  (f.nodes.length, ⟨f.nodes ++ [n], f.edges⟩)

/-- Model of `AlphaVectorFSC::UpdateEdge` (map overload): replace the edge map stored
at index `nI`. -/
def AlphaVectorFSC.UpdateEdge (f : AlphaVectorFSC) (nI : ℤ) (em : EdgeMap) :
    AlphaVectorFSC :=
  ⟨f.nodes, fun j => if j = nI then em else f.edges j⟩

/-- The match condition of `MCVIPlanner::FindOrInsertNode`: stored node `nI`
has the candidate's best action and exactly the candidate's edge map. -/
def Matches (f : AlphaVectorFSC) (nI : ℕ) (action : ℤ) (em : EdgeMap) : Prop :=
  (f.GetNode (nI : ℤ)).bestAction = action ∧ f.GetEdges (nI : ℤ) = em

instance instDecidableMatches (f : AlphaVectorFSC) (nI : ℕ) (action : ℤ)
    (em : EdgeMap) : Decidable (Matches f nI action em) := by
  unfold Matches
  infer_instance

/-- The linear scan of `MCVIPlanner::FindOrInsertNode`, from index `nI` with
`fuel` indices left to inspect. -/
def ScanFrom (f : AlphaVectorFSC) (action : ℤ) (em : EdgeMap) :
    ℕ → ℕ → Option ℕ
  | _, 0 => none
  | nI, fuel + 1 =>
    if Matches f nI action em then some nI
    else ScanFrom f action em (nI + 1) fuel

/-- First stored index matching (action, edge map), if any. -/
def FindNodeIndex (f : AlphaVectorFSC) (action : ℤ) (em : EdgeMap) : Option ℕ :=
  ScanFrom f action em 0 f.NumNodes

/-- Model of `MCVIPlanner::InsertNode`: append the node and store its edge map. -/
def InsertNode (f : AlphaVectorFSC) (node : AlphaVectorNode) (em : EdgeMap) :
    ℕ × AlphaVectorFSC :=
  let p := f.AddNode node
  (p.1, p.2.UpdateEdge (p.1 : ℤ) em)

/-- Model of `MCVIPlanner::FindOrInsertNode`: return the first stored index whose best
action and edge map both match, appending the candidate only when none does. -/
def FindOrInsertNode (f : AlphaVectorFSC) (node : AlphaVectorNode)
    (em : EdgeMap) : ℕ × AlphaVectorFSC :=
  match FindNodeIndex f node.bestAction em with
  | some nI => (nI, f)
  | none => InsertNode f node em

/-- Loop body of `AlphaVectorFSC::SimulateTrajectory`, recursing on the number
of remaining steps; `t` is the current step index, `acc` the reward
accumulated so far. -/
def SimTrajAux (f : AlphaVectorFSC) (sim : Sim) (Rlower : ℚ) (maxDepth : ℕ) :
    ℕ → ℕ → ℤ → ℤ → ℚ → ℚ
  | 0, _, _, _, acc => acc
  | fuel + 1, t, nI, s, acc =>
    if nI = -1 then acc + sim.gamma ^ t * (sim.gamma ^ maxDepth * Rlower)
    else
      if (sim.step s (f.GetNode nI).bestAction).done then
        acc + sim.gamma ^ t * (sim.step s (f.GetNode nI).bestAction).reward
      else
        SimTrajAux f sim Rlower maxDepth fuel (t + 1)
          (f.GetEdgeValue nI (sim.step s (f.GetNode nI).bestAction).obs)
          (sim.step s (f.GetNode nI).bestAction).sNext
          (acc + sim.gamma ^ t * (sim.step s (f.GetNode nI).bestAction).reward)

/-- Model of `AlphaVectorFSC::SimulateTrajectory`: walk the FSC from `nI`, executing
each node's best action in the simulator, accumulating `γ^t · r`, following
the observation edge; an unset pointer adds `γ^t · (γ^maxDepth · Rlower)` and
stops; `done` stops the walk. -/
def AlphaVectorFSC.SimulateTrajectory (f : AlphaVectorFSC) (nI s : ℤ)
    (maxDepth : ℕ) (Rlower : ℚ) (sim : Sim) : ℚ :=
  SimTrajAux f sim Rlower maxDepth maxDepth 0 nI s 0

/-- Relation `Walk f sim t c R t2 c2`: starting at step index `t` in configuration `c`
(FSC pointer, simulator state), the trajectory loop performs `t2 - t` ordinary
steps — each with a set pointer and a `false` done flag — accumulating
discounted reward `R`, and arrives at configuration `c2` at step index `t2`. -/
inductive Walk (f : AlphaVectorFSC) (sim : Sim) :
    ℕ → ℤ × ℤ → ℚ → ℕ → ℤ × ℤ → Prop
  | nil (t : ℕ) (c : ℤ × ℤ) : Walk f sim t c 0 t c
  | cons {t : ℕ} {nI s : ℤ} {R : ℚ} {t2 : ℕ} {c2 : ℤ × ℤ} :
      nI ≠ -1 →
      (sim.step s (f.GetNode nI).bestAction).done = false →
      Walk f sim (t + 1)
        (f.GetEdgeValue nI (sim.step s (f.GetNode nI).bestAction).obs,
          (sim.step s (f.GetNode nI).bestAction).sNext) R t2 c2 →
      Walk f sim t (nI, s)
        (sim.gamma ^ t * (sim.step s (f.GetNode nI).bestAction).reward + R)
        t2 c2

/-- One-node one-action simulator: every step yields next state 0,
observation 0, reward 0, not done; discount 1/2. -/
def simZero : Sim := ⟨fun _ _ => ⟨0, 0, 0, false⟩, 1 / 2, 1⟩

/-- FSC with a single node (best action 0, empty cache) and no edges. -/
def fscOne : AlphaVectorFSC := ⟨[⟨0, []⟩], fun _ => []⟩

/-- Model of `AlphaVectorNode::SetAlpha` on the node at `nI`: record the value computed
for `state` in the node's cache (called only for states not yet cached). -/
def AlphaVectorFSC.SetNodeAlpha (f : AlphaVectorFSC) (nI s : ℤ) (v : ℚ) :
    AlphaVectorFSC :=
  ⟨f.nodes.set nI.toNat
      ⟨(f.GetNode nI).bestAction, (s, v) :: (f.GetNode nI).alpha⟩, f.edges⟩

/-- Model of `AlphaVectorFSC::GetNodeAlpha`: return the cached value for `state` when
present; otherwise compute it by `SimulateTrajectory` and store it in the
node's value cache, returning the value and the updated store. -/
def AlphaVectorFSC.GetNodeAlpha (f : AlphaVectorFSC) (s nI : ℤ) (Rlower : ℚ)
    (maxDepthSim : ℕ) (sim : Sim) : ℚ × AlphaVectorFSC :=
  match alookup s (f.GetNode nI).alpha with
  | some v => (v, f)
  | none =>
    (f.SimulateTrajectory nI s maxDepthSim Rlower sim,
      f.SetNodeAlpha nI s (f.SimulateTrajectory nI s maxDepthSim Rlower sim))

/-- A child OR-node as seen from its parent AND-node: the observation label,
the observation weight (`_o_weights.at(obs)`), the child's value bounds and
the FSC node index currently attached to the child (`-1` when unset).  The
source pairs `_observation_edges` with a parallel `_o_weights` map over the
same keys; the embedding bundles the two. -/
structure ChildRef where
  obs : ℤ
  weight : ℚ
  upper : ℚ
  lower : ℚ
  fscNodeIndex : ℤ
deriving DecidableEq

/-- Belief-tree OR-node state used by backup and observation choice: the
belief, the per-action AND-node children, the stored best action (the lower
bound criterion, `GetBestAction` after `SetBestAction`) and the attached FSC
node index. -/
structure BeliefTreeNodeM where
  belief : List (ℤ × ℚ)
  actionChildren : List (ℤ × List ChildRef)
  bestAction : ℤ
  fscNodeIndex : ℤ

/-- The quantity `ActionNode::ChooseObservation` maximises for one
observation child: `((upper − lower) − target) · w(o)`. -/
def ObsGap (target : ℚ) (e : ChildRef) : ℚ := (e.upper - e.lower - target) * e.weight

/-- One iteration of the best-gap scan in `ActionNode::ChooseObservation`:
`none` models `best_obs = -1, best_gap = -∞`, which any finite gap beats. -/
def ChooseStep (target : ℚ) (best : Option (ℤ × ℚ)) (e : ChildRef) :
    Option (ℤ × ℚ) :=
  match best with
  | none => some (e.obs, ObsGap target e)
  | some pr => if ObsGap target e > pr.2 then some (e.obs, ObsGap target e) else some pr

/-- Model of `ActionNode::ChooseObservation`: return the observation with the largest
`((upper − lower) − target) · w(o)`; `none` models the
"Failed to find best observation" exception. -/
def ChooseObservation (target : ℚ) (entries : List ChildRef) : Option ℤ :=
  (entries.foldl (ChooseStep target) none).map Prod.fst

/-- Nested accumulation `next_beliefs[obs][sNext] += p` of
`ActionNode::BeliefUpdate`. -/
def AddToNested (m : List (ℤ × List (ℤ × ℚ))) (o s : ℤ) (p : ℚ) :
    List (ℤ × List (ℤ × ℚ)) :=
  match m with
  | [] => [(o, [(s, p)])]
  | ob :: rest =>
    if o = ob.1 then (ob.1, addTo ob.2 s p) :: rest else ob :: AddToNested rest o s p

/-- Sampling loop of `ActionNode::BeliefUpdate`: `draws` is the sequence of
(state, probability) pairs produced by `SamplePDFDestructive` — at most
`max_belief_samples` distinct states drawn without replacement from the
parent belief.  Returns the total drawn mass `prob_sum` and the intermediate
table `next_beliefs`. -/
def BeliefUpdateNext (sim : Sim) (action : ℤ) (draws : List (ℤ × ℚ)) :
    ℚ × List (ℤ × List (ℤ × ℚ)) :=
  draws.foldl
    (fun acc sp =>
      (acc.1 + sp.2,
        AddToNested acc.2 (sim.step sp.1 action).obs (sim.step sp.1 action).sNext sp.2))
    (0, [])

/-- Renormalisation step of `ActionNode::BeliefUpdate`: each per-observation
table entry is divided by that observation's weight `w = mass / prob_sum`
(`belief[s] = p / w` in the source). -/
def ChildBeliefs (probSum : ℚ) (nb : List (ℤ × List (ℤ × ℚ))) :
    List (ℤ × List (ℤ × ℚ)) :=
  nb.map (fun ob => (ob.1, ob.2.map (fun sp => (sp.1, sp.2 / (massOf ob.2 / probSum)))))

/-- Observation weights of `ActionNode::BeliefUpdate`: `w(o) = mass(o) / prob_sum`. -/
def OWeights (probSum : ℚ) (nb : List (ℤ × List (ℤ × ℚ))) : List (ℤ × ℚ) :=
  nb.map (fun ob => (ob.1, massOf ob.2 / probSum))

/-- The `ActionNode` constructor (`BeliefUpdate` + per-child
`CreateBeliefTreeNode`), with the external bound estimators passed as the
black-box functions `ub` (UpperBoundEvaluation: best action and admissible
upper bound) and `rl` (FindRLower), per the spec's external contracts; new
children carry an unset FSC index. -/
def MakeActionChildren (sim : Sim) (ub : List (ℤ × ℚ) → ℤ × ℚ)
    (rl : List (ℤ × ℚ) → ℚ) (action : ℤ) (draws : List (ℤ × ℚ)) :
    List ChildRef :=
  (BeliefUpdateNext sim action draws).2.map (fun ob =>
    ⟨ob.1, massOf ob.2 / (BeliefUpdateNext sim action draws).1,
      (ub (ob.2.map (fun sp =>
        (sp.1, sp.2 / (massOf ob.2 / (BeliefUpdateNext sim action draws).1))))).2,
      rl (ob.2.map (fun sp =>
        (sp.1, sp.2 / (massOf ob.2 / (BeliefUpdateNext sim action draws).1)))),
      -1⟩)

/-- The AND-node consulted by `BeliefTreeNode::ChooseObservation`: the
existing child table for the node's best action, or the AND-node freshly
built by `AddChild` when none exists yet. -/
def CurrentEntries (sim : Sim) (ub : List (ℤ × ℚ) → ℤ × ℚ)
    (rl : List (ℤ × ℚ) → ℚ) (draws : List (ℤ × ℚ)) (node : BeliefTreeNodeM) :
    List ChildRef :=
  match alookup node.bestAction node.actionChildren with
  | some entries => entries
  | none => MakeActionChildren sim ub rl node.bestAction draws

/-- Model of `BeliefTreeNode::ChooseObservation`: ensure the AND-node for the stored
best action exists (building it on demand), then delegate to
`ActionNode::ChooseObservation`. -/
def ChooseObservationT (sim : Sim) (ub : List (ℤ × ℚ) → ℤ × ℚ)
    (rl : List (ℤ × ℚ) → ℚ) (draws : List (ℤ × ℚ)) (node : BeliefTreeNodeM)
    (target : ℚ) : Option ℤ :=
  ChooseObservation target (CurrentEntries sim ub rl draws node)

/-- The edge map built by `MCVIPlanner::BackUp`:
`node_edges[obs] = child.GetBestPolicyNode()` over the children of the best
action, in canonical key-sorted form. -/
def BuildEdges (children : List ChildRef) : EdgeMap :=
  children.foldl (fun m c => insertSorted c.obs c.fscNodeIndex m) []

/-- Lines 43–53 of `MCVIPlanner::BackUp`, operating on the node state left by
the preceding phases (action expansion, `BackUpActions`, `UpdateBestAction` —
which touch bounds and value caches but neither the store's node list nor any
`fsc_node_index`): build the edge map over the best action's children, bail
out when it is empty, otherwise find-or-insert the candidate FSC node and
link the tree node to it. -/
def BackUpTail (fsc : AlphaVectorFSC) (node : BeliefTreeNodeM) :
    AlphaVectorFSC × BeliefTreeNodeM :=
  if BuildEdges ((alookup node.bestAction node.actionChildren).getD []) = [] then
    (fsc, node)
  else
    ((FindOrInsertNode fsc ⟨node.bestAction, []⟩
        (BuildEdges ((alookup node.bestAction node.actionChildren).getD []))).2,
      { node with
          fscNodeIndex :=
            ((FindOrInsertNode fsc ⟨node.bestAction, []⟩
              (BuildEdges ((alookup node.bestAction node.actionChildren).getD []))).1 : ℤ) })

/-- The fallback `GreedyBestAction` of `MCVI.cpp`: iterate over belief
entries and actions, compare `reward · prob` against the best record but
store the raw `reward` (as the source does); `none` models
`best_a = -1, best_r = -∞`. -/
def GreedyBestAction (sim : Sim) (belief : List (ℤ × ℚ)) : ℤ :=
  match
    belief.foldl
      (fun acc sp =>
        (List.range sim.numActions).foldl
          (fun acc2 a =>
            match acc2 with
            | none => some ((a : ℤ), (sim.step sp.1 (a : ℤ)).reward)
            | some pr =>
              if (sim.step sp.1 (a : ℤ)).reward * sp.2 > pr.2 then
                some ((a : ℤ), (sim.step sp.1 (a : ℤ)).reward)
              else some pr)
          acc)
      none
  with
  | none => -1
  | some pr => pr.1

/-- The quantity the spec says the fallback action should maximise:
`Σ_s b(s) · E[r|s,a]` (with the deterministic simulator, `E[r|s,a]` is the
stepped reward).  Modelled from the spec's words, for comparison with
`GreedyBestAction`. -/
def SpecExpectedReward (sim : Sim) (belief : List (ℤ × ℚ)) (a : ℤ) : ℚ :=
  (belief.map (fun sp => sp.2 * (sim.step sp.1 a).reward)).sum

/-- Accumulation loop of `NextBelief`, one belief entry at a time: states
whose step under `action` emits `observation` contribute their mass to
`next_states` (keyed by next state, first component of the accumulator) and
to `total_prob` (second component). -/
def NextBeliefFold (sim : Sim) (action observation : ℤ)
    (acc : List (ℤ × ℚ) × ℚ) : List (ℤ × ℚ) → List (ℤ × ℚ) × ℚ
  | [] => acc
  | sp :: rest =>
    NextBeliefFold sim action observation
      (if (sim.step sp.1 action).obs = observation then
        (addTo acc.1 (sim.step sp.1 action).sNext sp.2, acc.2 + sp.2)
      else acc) rest

/-- Accumulation phase of `NextBelief`: run the loop from the empty table. -/
def NextBeliefAcc (sim : Sim) (belief : List (ℤ × ℚ)) (action observation : ℤ) :
    List (ℤ × ℚ) × ℚ :=
  NextBeliefFold sim action observation ([], 0) belief

/-- Model of `NextBelief` of `MCVI.cpp`: exact one-step belief update for a fixed
action and observation; every accumulated entry is divided by `total_prob`. -/
def NextBelief (sim : Sim) (belief : List (ℤ × ℚ)) (action observation : ℤ) :
    List (ℤ × ℚ) :=
  (NextBeliefAcc sim belief action observation).1.map
    (fun sp => (sp.1, sp.2 / (NextBeliefAcc sim belief action observation).2))

/-- Planner state visible to `MCVIPlanner::Plan`: the FSC store and the root
node's bounds (which drive the convergence check). -/
structure PlanState where
  fsc : AlphaVectorFSC
  rootUpper : ℚ
  rootLower : ℚ

/-- The iteration loop of `MCVIPlanner::Plan`: while iterations remain, stop
if `|upper − lower| < epsilon`, otherwise run one belief-expansion/backup
pass (`body`).  `epsilon` lives in `WithTop ℚ` so that the `epsilon = ∞`
call of the spec is expressible. -/
def PlanLoop (epsilon : WithTop ℚ) (body : PlanState → PlanState) :
    ℕ → PlanState → PlanState
  | 0, ps => ps
  | k + 1, ps =>
    if (↑|ps.rootUpper - ps.rootLower| : WithTop ℚ) < epsilon then ps
    else PlanLoop epsilon body k (body ps)

/-- Model of `MCVIPlanner::Plan`: compute `R_lower` and the root (neither touches the
FSC store), append the seed FSC node carrying a random action (`seedAction`,
the oracle for `RandomAction()`; `AddNode` leaves its edge slot empty), then
iterate.  One iteration (`SampleBeliefs` plus the reverse backup sweep and
`SetStartNodeIndex`) depends on the RNG and simulator and is passed as
`body`; it is never invoked when `maxNbIter = 0`. -/
def Plan (ps : PlanState) (seedAction : ℤ) (epsilon : WithTop ℚ)
    (maxNbIter : ℕ) (body : PlanState → PlanState) : PlanState :=
  PlanLoop epsilon body maxNbIter
    { ps with fsc := (ps.fsc.AddNode ⟨seedAction, []⟩).2 }

/-- Empty FSC store. -/
def fscEmpty : AlphaVectorFSC := ⟨[], fun _ => []⟩

/-- Planner state with an empty FSC store. -/
def psEmpty : PlanState := ⟨fscEmpty, 0, 0⟩

/-- Planner state whose FSC already holds one node with best action 0 and an
empty edge map — exactly what the seed insertion of `Plan` duplicates. -/
def psSeed : PlanState := ⟨⟨[⟨0, []⟩], fun _ => []⟩, 0, 0⟩

/-- Tree node whose best action has exactly one child, carrying an unset FSC
index and coinciding bounds (`upper = lower = 0`). -/
def nodeUnsetChild : BeliefTreeNodeM := ⟨[], [(0, [⟨0, 1, 0, 0, -1⟩])], 0, -1⟩

/-- Tree node with no children at all and attached FSC index 7. -/
def nodeChildless : BeliefTreeNodeM := ⟨[], [], 0, 7⟩

/-- Two-action simulator paying reward 10 for action 0 in state 0 and reward
2 for action 1 in state 1, zero otherwise; deterministic, never done. -/
def simTwo : Sim :=
  ⟨fun s a =>
      ⟨s, 0, if s = 0 ∧ a = 0 then 10 else if s = 1 ∧ a = 1 then 2 else 0,
        false⟩,
    9 / 10, 2⟩

/-- Belief putting mass 1/10 on state 0 and 9/10 on state 1. -/
def beliefSkew : List (ℤ × ℚ) := [(0, 1 / 10), (1, 9 / 10)]

theorem listGetD_set_self {α : Type} (l : List α) (i : ℕ) (x d : α)
    (h : i < l.length) : (l.set i x).getD i d = x := by
  induction l generalizing i with
  | nil => simp at h
  | cons a l ih =>
    cases i with
    | zero => rfl
    | succ i => exact ih i (by simpa using h)

theorem listGetD_append_lt {α : Type} (l : List α) (x d : α) (i : ℕ)
    (h : i < l.length) : (l ++ [x]).getD i d = l.getD i d := by
  induction l generalizing i with
  | nil => simp at h
  | cons a l ih =>
    cases i with
    | zero => rfl
    | succ i => exact ih i (by simpa using h)

theorem listGetD_concat_self {α : Type} (l : List α) (x d : α) :
    (l ++ [x]).getD l.length d = x := by
  induction l with
  | nil => rfl
  | cons a l ih => exact ih

theorem Walk.start_le {f : AlphaVectorFSC} {sim : Sim} {t : ℕ} {c : ℤ × ℤ}
    {R : ℚ} {t2 : ℕ} {c2 : ℤ × ℤ} (h : Walk f sim t c R t2 c2) : t ≤ t2 := by
  induction h with
  | nil => exact le_rfl
  | cons _ _ _ ih => omega

theorem simTrajAux_of_walk (f : AlphaVectorFSC) (sim : Sim) (Rlower : ℚ)
    (maxDepth : ℕ) {t : ℕ} {c : ℤ × ℤ} {R : ℚ} {t2 : ℕ} {c2 : ℤ × ℤ}
    (hw : Walk f sim t c R t2 c2) (hend : c2.1 = -1) (ht : t2 < maxDepth) :
    ∀ acc : ℚ,
      SimTrajAux f sim Rlower maxDepth (maxDepth - t) t c.1 c.2 acc
        = acc + R + sim.gamma ^ t2 * (sim.gamma ^ maxDepth * Rlower) := by
  induction hw with
  | nil t c =>
    intro acc
    have hfuel : maxDepth - t = (maxDepth - t - 1) + 1 := by omega
    rw [hfuel, SimTrajAux, if_pos hend]
    ring
  | cons hnI hdone hw2 ih =>
    intro acc
    rename_i t nI s R t2x c2x
    have ht1 : t + 1 ≤ t2x := hw2.start_le
    have hfuel : maxDepth - t = (maxDepth - (t + 1)) + 1 := by omega
    dsimp only
    rw [hfuel, SimTrajAux, if_neg hnI, hdone,
      if_neg (by simp : ¬(false = true))]
    have ih2 := ih hend ht
    dsimp only at ih2
    rw [ih2]
    ring

/-- Claim C1, amended.  When the FSC pointer becomes unset at step `t2 <
maxDepth` (after a walk of `t2` ordinary steps accumulating discounted reward
`R`), `SimulateTrajectory` returns `R` plus `γ^t2 · (γ^maxDepth · Rlower)`:
the terminal correction is itself discounted by `γ^t2`, the step at which the
pointer became unset, and the walk stops there. -/
theorem SimulateTrajectory_unset (f : AlphaVectorFSC) (sim : Sim) (nI s : ℤ)
    (maxDepth : ℕ) (Rlower : ℚ) (R : ℚ) (t2 : ℕ) (sEnd : ℤ)
    (hw : Walk f sim 0 (nI, s) R t2 (-1, sEnd)) (ht : t2 < maxDepth) :
    f.SimulateTrajectory nI s maxDepth Rlower sim
      = R + sim.gamma ^ t2 * (sim.gamma ^ maxDepth * Rlower) := by
  have h := simTrajAux_of_walk f sim Rlower maxDepth hw rfl ht 0
  simpa [AlphaVectorFSC.SimulateTrajectory] using h

/-- Witness for `SimulateTrajectory_unset` at the one-node FSC: the pointer
becomes unset at step 1 and the value carries the extra `γ^1` factor. -/
theorem SimulateTrajectory_unset_witness :
    fscOne.SimulateTrajectory 0 0 2 1 simZero
      = 0 + simZero.gamma ^ 1 * (simZero.gamma ^ 2 * 1) := by
  have hw : Walk fscOne simZero 0 (0, 0)
      (simZero.gamma ^ 0 *
        (simZero.step 0 (fscOne.GetNode 0).bestAction).reward + 0)
      1 (-1, 0) :=
    Walk.cons (by decide) rfl (Walk.nil 1 (-1, 0))
  have hR : simZero.gamma ^ 0 *
      (simZero.step 0 (fscOne.GetNode 0).bestAction).reward + 0 = 0 := by
    norm_num [simZero, fscOne]
  exact SimulateTrajectory_unset fscOne simZero 0 0 2 1 0 1 0 (hR ▸ hw)
    (by omega)

/-- Claim C1 as stated is false: in `fscOne`/`simZero`, starting at node 0 in
state 0 with `depth_max = 2` and `R_lower = 1`, the pointer becomes unset at
step `t = 1` with accumulated reward 0, yet the returned value is not
`0 + γ^depth_max · R_lower = 1/4` (it is `γ^1 · γ^2 · 1 = 1/8`). -/
theorem SimulateTrajectory_claim_counter :
    Walk fscOne simZero 0 (0, 0) 0 1 (-1, 0) ∧
    fscOne.SimulateTrajectory 0 0 2 1 simZero ≠ 0 + (1 / 2 : ℚ) ^ 2 * 1 := by
  have hw : Walk fscOne simZero 0 (0, 0)
      (simZero.gamma ^ 0 *
        (simZero.step 0 (fscOne.GetNode 0).bestAction).reward + 0)
      1 (-1, 0) :=
    Walk.cons (by decide) rfl (Walk.nil 1 (-1, 0))
  have hR : simZero.gamma ^ 0 *
      (simZero.step 0 (fscOne.GetNode 0).bestAction).reward + 0 = 0 := by
    norm_num [simZero, fscOne]
  refine ⟨hR ▸ hw, ?_⟩
  norm_num [AlphaVectorFSC.SimulateTrajectory, SimTrajAux, fscOne, simZero,
    AlphaVectorFSC.GetNode, AlphaVectorFSC.GetEdgeValue,
    AlphaVectorFSC.GetEdges, alookup]

theorem getNode_setNodeAlpha (f : AlphaVectorFSC) (nI s : ℤ) (v : ℚ)
    (h : nI.toNat < f.NumNodes) :
    (f.SetNodeAlpha nI s v).GetNode nI
      = ⟨(f.GetNode nI).bestAction, (s, v) :: (f.GetNode nI).alpha⟩ := by
  unfold AlphaVectorFSC.SetNodeAlpha AlphaVectorFSC.GetNode
  exact listGetD_set_self _ _ _ _ h

/-- Claim C8.  For a valid node index, the first `GetNodeAlpha` call leaves
`value_cache[state]` holding the returned value, a repeated call returns the
identical value without changing the store, and on a cache miss the returned
value is the one computed by `SimulateTrajectory`. -/
theorem GetNodeAlpha_cached (f : AlphaVectorFSC) (s nI : ℤ) (Rlower : ℚ)
    (maxDepthSim : ℕ) (sim : Sim) (_h0 : 0 ≤ nI)
    (h1 : nI.toNat < f.NumNodes) :
    alookup s
        (((f.GetNodeAlpha s nI Rlower maxDepthSim sim).2).GetNode nI).alpha
      = some (f.GetNodeAlpha s nI Rlower maxDepthSim sim).1 ∧
    (((f.GetNodeAlpha s nI Rlower maxDepthSim sim).2).GetNodeAlpha s nI Rlower
        maxDepthSim sim).1
      = (f.GetNodeAlpha s nI Rlower maxDepthSim sim).1 ∧
    (((f.GetNodeAlpha s nI Rlower maxDepthSim sim).2).GetNodeAlpha s nI Rlower
        maxDepthSim sim).2
      = (f.GetNodeAlpha s nI Rlower maxDepthSim sim).2 ∧
    (alookup s (f.GetNode nI).alpha = none →
      (f.GetNodeAlpha s nI Rlower maxDepthSim sim).1
        = f.SimulateTrajectory nI s maxDepthSim Rlower sim) := by
  cases h : alookup s (f.GetNode nI).alpha with
  | some v =>
    have he : f.GetNodeAlpha s nI Rlower maxDepthSim sim = (v, f) := by
      unfold AlphaVectorFSC.GetNodeAlpha
      rw [h]
    refine ⟨?_, ?_, ?_, ?_⟩
    · simp only [he]
      exact h
    · simp only [he]
    · simp only [he]
    · intro hnone
      simp at hnone
  | none =>
    set V := f.SimulateTrajectory nI s maxDepthSim Rlower sim with hV
    have hset := getNode_setNodeAlpha f nI s V h1
    have he : f.GetNodeAlpha s nI Rlower maxDepthSim sim
        = (V, f.SetNodeAlpha nI s V) := by
      unfold AlphaVectorFSC.GetNodeAlpha
      rw [h]
    have hlook : alookup s ((f.SetNodeAlpha nI s V).GetNode nI).alpha
        = some V := by
      rw [hset]
      simp [alookup]
    have he2 : (f.SetNodeAlpha nI s V).GetNodeAlpha s nI Rlower maxDepthSim sim
        = (V, f.SetNodeAlpha nI s V) := by
      unfold AlphaVectorFSC.GetNodeAlpha
      rw [hlook]
    refine ⟨?_, ?_, ?_, ?_⟩
    · simp only [he]
      exact hlook
    · simp only [he, he2]
    · simp only [he, he2]
    · intro _
      simp only [he]

/-- Witness for `GetNodeAlpha_cached`: repeated evaluation at the one-node
FSC returns the identical value. -/
theorem GetNodeAlpha_cached_witness :
    ((fscOne.GetNodeAlpha 0 0 1 2 simZero).2.GetNodeAlpha 0 0 1 2 simZero).1
      = (fscOne.GetNodeAlpha 0 0 1 2 simZero).1 :=
  (GetNodeAlpha_cached fscOne 0 0 1 2 simZero (by decide) (by decide)).2.1

theorem scanFrom_none_iff (f : AlphaVectorFSC) (a : ℤ) (em : EdgeMap) :
    ∀ (fuel s : ℕ), ScanFrom f a em s fuel = none ↔
      ∀ j, s ≤ j → j < s + fuel → ¬ Matches f j a em := by
  intro fuel
  induction fuel with
  | zero =>
    intro s
    constructor
    · intro _ j h1 h2
      omega
    · intro _
      rfl
  | succ k ih =>
    intro s
    rw [ScanFrom]
    by_cases hm : Matches f s a em
    · rw [if_pos hm]
      constructor
      · intro h
        cases h
      · intro hall
        exact absurd hm (hall s le_rfl (by omega))
    · rw [if_neg hm]
      rw [ih (s + 1)]
      constructor
      · intro hall j h1 h2
        rcases Nat.eq_or_lt_of_le h1 with rfl | hlt
        · exact hm
        · exact hall j hlt (by omega)
      · intro hall j h1 h2
        exact hall j (by omega) (by omega)

theorem scanFrom_some (f : AlphaVectorFSC) (a : ℤ) (em : EdgeMap) :
    ∀ (fuel s i : ℕ), ScanFrom f a em s fuel = some i →
      s ≤ i ∧ i < s + fuel ∧ Matches f i a em ∧
        ∀ j, s ≤ j → j < i → ¬ Matches f j a em := by
  intro fuel
  induction fuel with
  | zero =>
    intro s i h
    cases h
  | succ k ih =>
    intro s i h
    rw [ScanFrom] at h
    by_cases hm : Matches f s a em
    · rw [if_pos hm] at h
      cases h
      exact ⟨le_rfl, by omega, hm, fun j h1 h2 => by omega⟩
    · rw [if_neg hm] at h
      obtain ⟨h1, h2, h3, h4⟩ := ih (s + 1) i h
      refine ⟨by omega, by omega, h3, ?_⟩
      intro j hj1 hj2
      rcases Nat.eq_or_lt_of_le hj1 with rfl | hlt
      · exact hm
      · exact h4 j hlt hj2

theorem scanFrom_some_intro (f : AlphaVectorFSC) (a : ℤ) (em : EdgeMap) :
    ∀ (fuel s i : ℕ), s ≤ i → i < s + fuel → Matches f i a em →
      (∀ j, s ≤ j → j < i → ¬ Matches f j a em) →
      ScanFrom f a em s fuel = some i := by
  intro fuel
  induction fuel with
  | zero =>
    intro s i h1 h2 _ _
    exact absurd h2 (by omega)
  | succ k ih =>
    intro s i h1 h2 hm hall
    rw [ScanFrom]
    rcases Nat.eq_or_lt_of_le h1 with rfl | hlt
    · rw [if_pos hm]
    · rw [if_neg (hall s le_rfl hlt)]
      exact ih (s + 1) i (by omega) (by omega) hm
        (fun j hj1 hj2 => hall j (by omega) hj2)

theorem insertNode_numNodes (f : AlphaVectorFSC) (node : AlphaVectorNode)
    (em : EdgeMap) :
    (InsertNode f node em).2.NumNodes = f.NumNodes + 1 := by
  unfold InsertNode AlphaVectorFSC.AddNode AlphaVectorFSC.UpdateEdge
    AlphaVectorFSC.NumNodes
  simp

theorem insertNode_matches_lt (f : AlphaVectorFSC) (node : AlphaVectorNode)
    (em0 em : EdgeMap) (a : ℤ) (j : ℕ) (hj : j < f.NumNodes) :
    Matches (InsertNode f node em0).2 j a em ↔ Matches f j a em := by
  unfold AlphaVectorFSC.NumNodes at hj
  unfold Matches InsertNode AlphaVectorFSC.AddNode AlphaVectorFSC.UpdateEdge
    AlphaVectorFSC.GetNode AlphaVectorFSC.GetEdges
  dsimp only
  rw [Int.toNat_natCast, listGetD_append_lt _ _ _ j hj,
    if_neg (by exact_mod_cast Nat.ne_of_lt hj)]

theorem insertNode_matches_self (f : AlphaVectorFSC) (node : AlphaVectorNode)
    (em : EdgeMap) :
    Matches (InsertNode f node em).2 f.NumNodes node.bestAction em := by
  unfold Matches InsertNode AlphaVectorFSC.AddNode AlphaVectorFSC.UpdateEdge
    AlphaVectorFSC.GetNode AlphaVectorFSC.GetEdges AlphaVectorFSC.NumNodes
  dsimp only
  constructor
  · rw [Int.toNat_natCast, listGetD_concat_self]
  · rw [if_pos rfl]

/-- Claim C7.  Running `FindOrInsertNode` twice in succession with the same
candidate returns the same index both times, and the second call leaves the
store — in particular its node count — unchanged. -/
theorem FindOrInsertNode_idem (f : AlphaVectorFSC) (node : AlphaVectorNode)
    (em : EdgeMap) :
    (FindOrInsertNode (FindOrInsertNode f node em).2 node em).1
        = (FindOrInsertNode f node em).1 ∧
    (FindOrInsertNode (FindOrInsertNode f node em).2 node em).2
        = (FindOrInsertNode f node em).2 ∧
    (FindOrInsertNode (FindOrInsertNode f node em).2 node em).2.NumNodes
        = (FindOrInsertNode f node em).2.NumNodes := by
  cases h : FindNodeIndex f node.bestAction em with
  | some i =>
    have he : FindOrInsertNode f node em = (i, f) := by
      unfold FindOrInsertNode
      rw [h]
    simp [he]
  | none =>
    have hn : ∀ j, 0 ≤ j → j < 0 + f.NumNodes → ¬ Matches f j node.bestAction em := by
      refine (scanFrom_none_iff f node.bestAction em f.NumNodes 0).mp ?_
      rw [← FindNodeIndex]
      exact h
    have key : FindNodeIndex (InsertNode f node em).2 node.bestAction em
        = some f.NumNodes := by
      unfold FindNodeIndex
      rw [insertNode_numNodes]
      refine scanFrom_some_intro _ _ _ (f.NumNodes + 1) 0 f.NumNodes
        (by omega) (by omega) (insertNode_matches_self f node em) ?_
      intro j hj1 hj2
      rw [insertNode_matches_lt f node em em node.bestAction j hj2]
      exact hn j (by omega) (by omega)
    have he : FindOrInsertNode f node em = InsertNode f node em := by
      unfold FindOrInsertNode
      rw [h]
    have he2 : FindOrInsertNode (InsertNode f node em).2 node em
        = (f.NumNodes, (InsertNode f node em).2) := by
      unfold FindOrInsertNode
      rw [key]
    refine ⟨?_, ?_, ?_⟩ <;> simp only [he, he2]
    rfl

/-- Claim C6, amended.  `FindOrInsertNode` returns the smallest existing
index whose best action and edge map both match the candidate, and appends
the candidate (storing its edge map) only when no stored index matches. -/
theorem FindOrInsertNode_spec (f : AlphaVectorFSC) (node : AlphaVectorNode)
    (em : EdgeMap) :
    (∀ j, j < (FindOrInsertNode f node em).1 → ¬ Matches f j node.bestAction em) ∧
    ((∃ j, j < f.NumNodes ∧ Matches f j node.bestAction em) →
      (FindOrInsertNode f node em).2 = f ∧
      Matches f (FindOrInsertNode f node em).1 node.bestAction em) ∧
    ((∀ j, j < f.NumNodes → ¬ Matches f j node.bestAction em) →
      (FindOrInsertNode f node em).1 = f.NumNodes ∧
      (FindOrInsertNode f node em).2.nodes = f.nodes ++ [node] ∧
      (FindOrInsertNode f node em).2.GetEdges (f.NumNodes : ℤ) = em) := by
  cases h : FindNodeIndex f node.bestAction em with
  | some i =>
    obtain ⟨h1, h2, h3, h4⟩ := scanFrom_some f node.bestAction em f.NumNodes 0 i
      (by rw [← FindNodeIndex]; exact h)
    have he : FindOrInsertNode f node em = (i, f) := by
      unfold FindOrInsertNode
      rw [h]
    refine ⟨?_, ?_, ?_⟩
    · intro j hj
      rw [he] at hj
      exact h4 j (by omega) hj
    · intro _
      rw [he]
      exact ⟨rfl, h3⟩
    · intro hall
      exact absurd h3 (hall i (by omega))
  | none =>
    have hn : ∀ j, 0 ≤ j → j < 0 + f.NumNodes → ¬ Matches f j node.bestAction em := by
      refine (scanFrom_none_iff f node.bestAction em f.NumNodes 0).mp ?_
      rw [← FindNodeIndex]
      exact h
    have he : FindOrInsertNode f node em = InsertNode f node em := by
      unfold FindOrInsertNode
      rw [h]
    refine ⟨?_, ?_, ?_⟩
    · intro j hj
      rw [he] at hj
      have : j < f.NumNodes := hj
      exact hn j (by omega) (by omega)
    · intro ⟨j, hj, hm⟩
      exact absurd hm (hn j (by omega) (by omega))
    · intro _
      rw [he]
      refine ⟨rfl, rfl, ?_⟩
      unfold InsertNode AlphaVectorFSC.AddNode AlphaVectorFSC.UpdateEdge
        AlphaVectorFSC.GetEdges AlphaVectorFSC.NumNodes
      dsimp only
      rw [if_pos rfl]

/-- Witness for `FindOrInsertNode_spec`: inserting into the empty store
appends at index 0 and stores the edge map. -/
theorem FindOrInsertNode_spec_witness :
    (FindOrInsertNode fscEmpty ⟨0, []⟩ []).1 = fscEmpty.NumNodes ∧
    (FindOrInsertNode fscEmpty ⟨0, []⟩ []).2.nodes
        = fscEmpty.nodes ++ [⟨0, []⟩] ∧
    (FindOrInsertNode fscEmpty ⟨0, []⟩ []).2.GetEdges (fscEmpty.NumNodes : ℤ)
        = [] :=
  (FindOrInsertNode_spec fscEmpty ⟨0, []⟩ []).2.2
    (fun j hj => absurd hj (by simp [fscEmpty, AlphaVectorFSC.NumNodes]))

/-- Claim C6's store-wide dedup invariant is false on the code: starting from
a store holding one node (best action 0, empty edge map), the planner's own
`Plan` call with `max_iter = 0` (seed action 0) leaves the store with two
distinct indices 0 ≠ 1 whose (best action, edge map) pairs coincide, because
the seed node is added by `AddNode` without the `FindOrInsertNode` check. -/
theorem FSC_dedup_counter :
    (Plan psSeed 0 ⊤ 0 id).fsc.NumNodes = 2 ∧
    ((Plan psSeed 0 ⊤ 0 id).fsc.GetNode 0).bestAction
        = ((Plan psSeed 0 ⊤ 0 id).fsc.GetNode 1).bestAction ∧
    (Plan psSeed 0 ⊤ 0 id).fsc.GetEdges 0
        = (Plan psSeed 0 ⊤ 0 id).fsc.GetEdges 1 := by
  refine ⟨?_, ?_, ?_⟩ <;> decide

/-- Claim C5, amended.  `Plan` with `max_iter = 0` (any epsilon, the ∞ of the
claim included) performs no iterations, but does not leave the FSC unchanged:
it appends exactly one seed node carrying the random action, with the edge
table and the root bounds unmodified and no existing node removed or
modified. -/
theorem Plan_zero_iter (ps : PlanState) (seedAction : ℤ) (epsilon : WithTop ℚ)
    (body : PlanState → PlanState) :
    (Plan ps seedAction epsilon 0 body).fsc.nodes
        = ps.fsc.nodes ++ [⟨seedAction, []⟩] ∧
    (Plan ps seedAction epsilon 0 body).fsc.edges = ps.fsc.edges ∧
    (Plan ps seedAction epsilon 0 body).rootUpper = ps.rootUpper ∧
    (Plan ps seedAction epsilon 0 body).rootLower = ps.rootLower :=
  ⟨rfl, rfl, rfl, rfl⟩

/-- Claim C5 as stated is false: `Plan` with `epsilon = ∞` (the top element)
and `max_iter = 0` does not return the FSC unchanged — the seed node is
appended before the iteration loop is ever entered. -/
theorem Plan_zero_iter_counter :
    (Plan psEmpty 0 ⊤ 0 id).fsc.NumNodes ≠ psEmpty.fsc.NumNodes := by
  decide

theorem alookup_insertSorted_self (k v : ℤ) (m : List (ℤ × ℤ)) :
    alookup k (insertSorted k v m) = some v := by
  induction m with
  | nil => simp [insertSorted, alookup]
  | cons kv rest ih =>
    rw [insertSorted]
    by_cases h1 : k < kv.1
    · simp [if_pos h1, alookup]
    · by_cases h2 : k = kv.1
      · simp [if_neg h1, if_pos h2, alookup]
      · simp only [if_neg h1, if_neg h2]
        simp [alookup, h2, ih]

theorem alookup_insertSorted_ne (k k2 v : ℤ) (m : List (ℤ × ℤ)) (h : k ≠ k2) :
    alookup k (insertSorted k2 v m) = alookup k m := by
  induction m with
  | nil => simp [insertSorted, alookup, h]
  | cons kv rest ih =>
    rw [insertSorted]
    by_cases h1 : k2 < kv.1
    · simp [if_pos h1, alookup, h]
    · by_cases h2 : k2 = kv.1
      · have hne : k ≠ kv.1 := h2 ▸ h
        simp [if_neg h1, if_pos h2, alookup, h, hne]
      · by_cases h3 : k = kv.1 <;>
          simp [if_neg h1, if_neg h2, alookup, h3, ih]

theorem insertSorted_ne_nil (k v : ℤ) (m : List (ℤ × ℤ)) :
    insertSorted k v m ≠ [] := by
  cases m with
  | nil => simp [insertSorted]
  | cons kv rest =>
    rw [insertSorted]
    by_cases h1 : k < kv.1
    · simp [if_pos h1]
    · by_cases h2 : k = kv.1 <;> simp [if_neg h1, h2]

theorem buildEdgesAux_ne_nil (children : List ChildRef) (m : List (ℤ × ℤ))
    (h : m ≠ []) :
    children.foldl (fun m2 c => insertSorted c.obs c.fscNodeIndex m2) m ≠ [] := by
  induction children generalizing m with
  | nil => exact h
  | cons c rest ih => exact ih _ (insertSorted_ne_nil _ _ _)

theorem buildEdges_ne_nil (c : ChildRef) (rest : List ChildRef) :
    BuildEdges (c :: rest) ≠ [] := by
  unfold BuildEdges
  rw [List.foldl_cons]
  exact buildEdgesAux_ne_nil rest _ (insertSorted_ne_nil _ _ _)

theorem alookup_foldl_insert_of_not_mem (k : ℤ) (rest : List ChildRef)
    (m : List (ℤ × ℤ)) (h : ∀ c ∈ rest, c.obs ≠ k) :
    alookup k (rest.foldl (fun m2 c => insertSorted c.obs c.fscNodeIndex m2) m)
      = alookup k m := by
  induction rest generalizing m with
  | nil => rfl
  | cons c rest2 ih =>
    rw [List.foldl_cons]
    rw [ih _ (fun c2 hc2 => h c2 (List.mem_cons_of_mem _ hc2))]
    exact alookup_insertSorted_ne k c.obs _ m
      (Ne.symm (h c (List.mem_cons_self _ _)))

theorem buildEdges_lookup_gen :
    ∀ (children : List ChildRef) (m : List (ℤ × ℤ)),
      List.Pairwise (fun c1 c2 => c1.obs ≠ c2.obs) children →
      ∀ c ∈ children,
        alookup c.obs
          (children.foldl (fun m2 c2 => insertSorted c2.obs c2.fscNodeIndex m2) m)
          = some c.fscNodeIndex := by
  intro children
  induction children with
  | nil =>
    intro m _ c hc
    cases hc
  | cons c0 rest ih =>
    intro m hdist c hc
    rw [List.foldl_cons]
    rcases List.mem_cons.mp hc with rfl | hmem
    · have hne : ∀ c2 ∈ rest, c2.obs ≠ c.obs := by
        intro c2 hc2 he
        exact (List.pairwise_cons.mp hdist).1 c2 hc2 he.symm
      rw [alookup_foldl_insert_of_not_mem c.obs rest _ hne]
      exact alookup_insertSorted_self _ _ _
    · exact ih _ (List.pairwise_cons.mp hdist).2 c hmem

theorem findOrInsertNode_result_matches (f : AlphaVectorFSC)
    (node : AlphaVectorNode) (em : EdgeMap) :
    ((FindOrInsertNode f node em).2.GetNode
        ((FindOrInsertNode f node em).1 : ℤ)).bestAction = node.bestAction ∧
    (FindOrInsertNode f node em).2.GetEdges
        ((FindOrInsertNode f node em).1 : ℤ) = em := by
  cases h : FindNodeIndex f node.bestAction em with
  | some i =>
    obtain ⟨h1, h2, h3, h4⟩ := scanFrom_some f node.bestAction em f.NumNodes 0 i
      (by rw [← FindNodeIndex]; exact h)
    have he : FindOrInsertNode f node em = (i, f) := by
      unfold FindOrInsertNode
      rw [h]
    rw [he]
    exact h3
  | none =>
    have he : FindOrInsertNode f node em = InsertNode f node em := by
      unfold FindOrInsertNode
      rw [h]
    rw [he]
    exact insertNode_matches_self f node em

/-- Claim C2, amended.  In `BackUp`'s edge construction over the best
action's children: when the child table is empty the backup returns with the
store and the node — in particular its `fsc_node_index` — unchanged (the
index is not set to unset); otherwise every child contributes an edge to its
attached FSC index, children with an unset (−1) index included rather than
skipped, and the tree node is linked to a store index holding exactly the
best action and that edge map. -/
theorem BackUpTail_spec (fsc : AlphaVectorFSC) (node : BeliefTreeNodeM) :
    ((alookup node.bestAction node.actionChildren).getD [] = [] →
      BackUpTail fsc node = (fsc, node)) ∧
    ((alookup node.bestAction node.actionChildren).getD [] ≠ [] →
      ((BackUpTail fsc node).1.GetNode
          (BackUpTail fsc node).2.fscNodeIndex).bestAction = node.bestAction ∧
      (BackUpTail fsc node).1.GetEdges (BackUpTail fsc node).2.fscNodeIndex
          = BuildEdges ((alookup node.bestAction node.actionChildren).getD []) ∧
      (List.Pairwise (fun c1 c2 => c1.obs ≠ c2.obs)
          ((alookup node.bestAction node.actionChildren).getD []) →
        ∀ c ∈ (alookup node.bestAction node.actionChildren).getD [],
          alookup c.obs
              (BuildEdges ((alookup node.bestAction node.actionChildren).getD []))
            = some c.fscNodeIndex)) := by
  constructor
  · intro h
    unfold BackUpTail
    rw [if_pos (by rw [h]; rfl)]
  · intro hne
    have hbe : BuildEdges ((alookup node.bestAction node.actionChildren).getD [])
        ≠ [] := by
      cases hc : (alookup node.bestAction node.actionChildren).getD [] with
      | nil => exact absurd hc hne
      | cons c rest => exact buildEdges_ne_nil c rest
    have hm := findOrInsertNode_result_matches fsc ⟨node.bestAction, []⟩
      (BuildEdges ((alookup node.bestAction node.actionChildren).getD []))
    unfold BackUpTail
    rw [if_neg hbe]
    dsimp only
    refine ⟨hm.1, hm.2, ?_⟩
    intro hdist c hc
    exact buildEdges_lookup_gen _ [] hdist c hc

/-- Tree node with one child (observation 5, attached FSC index 3) for its
best action 0. -/
def nodeOneChild : BeliefTreeNodeM := ⟨[], [(0, [⟨5, 1, 0, 0, 3⟩])], 0, -1⟩

/-- Witness for `BackUpTail_spec` on a node with one attached child. -/
theorem BackUpTail_spec_witness :
    ((BackUpTail fscEmpty nodeOneChild).1.GetNode
        (BackUpTail fscEmpty nodeOneChild).2.fscNodeIndex).bestAction
      = nodeOneChild.bestAction ∧
    (BackUpTail fscEmpty nodeOneChild).1.GetEdges
        (BackUpTail fscEmpty nodeOneChild).2.fscNodeIndex
      = BuildEdges
          ((alookup nodeOneChild.bestAction nodeOneChild.actionChildren).getD []) :=
  ⟨((BackUpTail_spec fscEmpty nodeOneChild).2 (by decide)).1,
    ((BackUpTail_spec fscEmpty nodeOneChild).2 (by decide)).2.1⟩

/-- Claim C2 is false as stated: a child with an unset FSC index is not
skipped — with a single unset-index child the backup still inserts an FSC
node (the store grows to 1) and links the tree node to it (index 0, not
unset); and with no children at all the backup leaves `fsc_node_index`
untouched (here 7) instead of setting it to unset. -/
theorem BackUpTail_claim_counter :
    (BackUpTail fscEmpty nodeUnsetChild).1.NumNodes = 1 ∧
    (BackUpTail fscEmpty nodeUnsetChild).2.fscNodeIndex = 0 ∧
    (BackUpTail fscEmpty nodeChildless).2.fscNodeIndex = 7 ∧
    (BackUpTail fscEmpty nodeChildless).1.NumNodes = 0 := by
  refine ⟨?_, ?_, ?_, ?_⟩ <;> decide

theorem chooseFold_some (target : ℚ) :
    ∀ (l : List ChildRef) (pr : ℤ × ℚ),
      ∃ pr2, l.foldl (ChooseStep target) (some pr) = some pr2 ∧
        pr.2 ≤ pr2.2 ∧ (∀ e ∈ l, ObsGap target e ≤ pr2.2) ∧
        (pr2 = pr ∨ ∃ e ∈ l, e.obs = pr2.1 ∧ ObsGap target e = pr2.2) := by
  intro l
  induction l with
  | nil =>
    intro pr
    exact ⟨pr, rfl, le_rfl, fun e he => absurd he (List.not_mem_nil e), Or.inl rfl⟩
  | cons e l ih =>
    intro pr
    rw [List.foldl_cons]
    by_cases hgt : ObsGap target e > pr.2
    · have hstep : ChooseStep target (some pr) e
          = some (e.obs, ObsGap target e) := by
        simp only [ChooseStep]
        rw [if_pos hgt]
      rw [hstep]
      obtain ⟨pr2, h1, h2, h3, h4⟩ := ih (e.obs, ObsGap target e)
      refine ⟨pr2, h1, le_trans (le_of_lt hgt) h2, ?_, ?_⟩
      · intro e2 he2
        rcases List.mem_cons.mp he2 with rfl | hmem
        · exact h2
        · exact h3 e2 hmem
      · rcases h4 with rfl | ⟨e2, hmem, hobs, hgap⟩
        · exact Or.inr ⟨e, List.mem_cons_self _ _, rfl, rfl⟩
        · exact Or.inr ⟨e2, List.mem_cons_of_mem _ hmem, hobs, hgap⟩
    · have hstep : ChooseStep target (some pr) e = some pr := by
        simp only [ChooseStep]
        rw [if_neg hgt]
      rw [hstep]
      obtain ⟨pr2, h1, h2, h3, h4⟩ := ih pr
      refine ⟨pr2, h1, h2, ?_, ?_⟩
      · intro e2 he2
        rcases List.mem_cons.mp he2 with rfl | hmem
        · exact le_trans (not_lt.mp hgt) h2
        · exact h3 e2 hmem
      · rcases h4 with rfl | ⟨e2, hmem, hobs, hgap⟩
        · exact Or.inl rfl
        · exact Or.inr ⟨e2, List.mem_cons_of_mem _ hmem, hobs, hgap⟩

theorem chooseObservation_argmax (target : ℚ) (entries : List ChildRef) :
    (ChooseObservation target entries = none ↔ entries = []) ∧
    ∀ o, ChooseObservation target entries = some o →
      ∃ e ∈ entries, e.obs = o ∧
        ∀ e2 ∈ entries, ObsGap target e2 ≤ ObsGap target e := by
  cases entries with
  | nil =>
    constructor
    · simp [ChooseObservation]
    · intro o h
      simp [ChooseObservation] at h
  | cons e l =>
    obtain ⟨pr2, h1, h2, h3, h4⟩ := chooseFold_some target l (e.obs, ObsGap target e)
    have hres : ChooseObservation target (e :: l) = some pr2.1 := by
      unfold ChooseObservation
      rw [List.foldl_cons]
      have hstep : ChooseStep target none e = some (e.obs, ObsGap target e) := rfl
      rw [hstep, h1]
      rfl
    constructor
    · rw [hres]
      constructor
      · intro hcon
        cases hcon
      · intro hcon
        cases hcon
    · intro o ho
      rw [hres] at ho
      cases ho
      rcases h4 with rfl | ⟨e2, hmem, hobs, hgap⟩
      · refine ⟨e, List.mem_cons_self _ _, rfl, ?_⟩
        intro e2 he2
        rcases List.mem_cons.mp he2 with rfl | hmem
        · exact le_rfl
        · exact h3 e2 hmem
      · refine ⟨e2, List.mem_cons_of_mem _ hmem, hobs, ?_⟩
        intro e3 he3
        rw [hgap]
        rcases List.mem_cons.mp he3 with rfl | hmem3
        · exact h2
        · exact h3 e3 hmem3

/-- Claim C4, amended.  `ChooseObservation` (reached through the
belief-tree node, which creates a missing AND-node on demand instead of
failing) returns an observation attaining the maximum of
`w(o) · ((upper − lower) − target)` over the existing observation children,
and it fails exactly when that child table is empty; a non-positive best gap
does not end the traversal. -/
theorem ChooseObservationT_spec (sim : Sim) (ub : List (ℤ × ℚ) → ℤ × ℚ)
    (rl : List (ℤ × ℚ) → ℚ) (draws : List (ℤ × ℚ)) (node : BeliefTreeNodeM)
    (target : ℚ) :
    (ChooseObservationT sim ub rl draws node target = none ↔
      CurrentEntries sim ub rl draws node = []) ∧
    ∀ o, ChooseObservationT sim ub rl draws node target = some o →
      ∃ e ∈ CurrentEntries sim ub rl draws node, e.obs = o ∧
        ∀ e2 ∈ CurrentEntries sim ub rl draws node,
          ObsGap target e2 ≤ ObsGap target e :=
  chooseObservation_argmax target (CurrentEntries sim ub rl draws node)

/-- Witness for `ChooseObservationT_spec`: on a node with a single child the
returned observation attains the maximal weighted gap. -/
theorem ChooseObservationT_spec_witness :
    ∃ e ∈ CurrentEntries simZero (fun _ => (0, 0)) (fun _ => 0) [] nodeOneChild,
      e.obs = 5 ∧
        ∀ e2 ∈ CurrentEntries simZero (fun _ => (0, 0)) (fun _ => 0) [] nodeOneChild,
          ObsGap 0 e2 ≤ ObsGap 0 e :=
  (ChooseObservationT_spec simZero (fun _ => (0, 0)) (fun _ => 0) [] nodeOneChild
    0).2 5 rfl

/-- Claim C4 is false as stated: at `target = 5` the node's only child has
weighted gap `(0 − 0 − 5) · 1 = −5 ≤ 0`, yet `ChooseObservation` does not
fail — it still returns that child's observation. -/
theorem ChooseObservation_nonpositive_counter :
    ChooseObservationT simZero (fun _ => (0, 0)) (fun _ => 0) [] nodeOneChild 5
        = some 5 ∧
    ObsGap 5 ⟨5, 1, 0, 0, 3⟩ ≤ 0 := by
  constructor
  · rfl
  · norm_num [ObsGap]

/-- Claim C3 is wrong on the code (code bug): with parent belief
{0 ↦ 1/2, 1 ↦ 1/2} and `max_belief_samples = 1`, the single draw (0, 1/2)
gives `prob_sum = 1/2` and the child belief built for observation 0 sums to
1/2, not 1 — the source divides each probability by `w = mass / prob_sum`
(its own comment says "Renormalise") instead of by the observation's mass. -/
theorem BeliefUpdate_child_mass_bug :
    (BeliefUpdateNext simZero 0 [(0, (1 : ℚ) / 2)]).1 = 1 / 2 ∧
    (ChildBeliefs (BeliefUpdateNext simZero 0 [(0, (1 : ℚ) / 2)]).1
        (BeliefUpdateNext simZero 0 [(0, (1 : ℚ) / 2)]).2).map
        (fun ob => massOf ob.2)
      = [(1 : ℚ) / 2] := by
  constructor <;>
    norm_num [BeliefUpdateNext, AddToNested, addTo, ChildBeliefs, massOf,
      simZero]

/-- Claim C9 is wrong on the code (a bug the spec's design notes
acknowledge): `GreedyBestAction` compares `reward · prob` against the best
record but stores the raw `reward`.  On belief {0 ↦ 1/10, 1 ↦ 9/10} with
deterministic rewards r(0, a0) = 10 and r(1, a1) = 2 it returns action 0,
although action 1 maximises `Σ_s b(s) · E[r|s,a]` (9/5 > 1). -/
theorem GreedyBestAction_bug :
    GreedyBestAction simTwo beliefSkew = 0 ∧
    SpecExpectedReward simTwo beliefSkew 0 < SpecExpectedReward simTwo beliefSkew 1 := by
  constructor
  · norm_num [GreedyBestAction, simTwo, beliefSkew, List.range_succ]
  · norm_num [SpecExpectedReward, simTwo, beliefSkew]

theorem massOf_addTo (m : List (ℤ × ℚ)) (k : ℤ) (v : ℚ) :
    massOf (addTo m k v) = massOf m + v := by
  induction m with
  | nil => simp [addTo, massOf]
  | cons kv rest ih =>
    rw [addTo]
    by_cases h : k = kv.1
    · rw [if_pos h]
      simp [massOf]
      ring
    · rw [if_neg h]
      simp [massOf] at ih ⊢
      rw [ih]
      ring

theorem massOf_map_div (l : List (ℤ × ℚ)) (c : ℚ) :
    massOf (l.map (fun sp => (sp.1, sp.2 / c))) = massOf l / c := by
  induction l with
  | nil => simp [massOf]
  | cons sp rest ih =>
    simp [massOf] at ih ⊢
    rw [ih, add_div]

theorem nextFold_no_match (sim : Sim) (action observation : ℤ) :
    ∀ (l : List (ℤ × ℚ)) (acc : List (ℤ × ℚ) × ℚ),
      (∀ sp ∈ l, (sim.step sp.1 action).obs ≠ observation) →
      NextBeliefFold sim action observation acc l = acc := by
  intro l
  induction l with
  | nil =>
    intro acc _
    rfl
  | cons sp rest ih =>
    intro acc h
    rw [NextBeliefFold, if_neg (h sp (List.mem_cons_self _ _))]
    exact ih acc (fun sp2 h2 => h sp2 (List.mem_cons_of_mem _ h2))

theorem nextFold_mass (sim : Sim) (action observation : ℤ) :
    ∀ (l : List (ℤ × ℚ)) (acc : List (ℤ × ℚ) × ℚ), massOf acc.1 = acc.2 →
      massOf (NextBeliefFold sim action observation acc l).1
        = (NextBeliefFold sim action observation acc l).2 := by
  intro l
  induction l with
  | nil =>
    intro acc h
    exact h
  | cons sp rest ih =>
    intro acc h
    rw [NextBeliefFold]
    by_cases hobs : (sim.step sp.1 action).obs = observation
    · rw [if_pos hobs]
      refine ih _ ?_
      dsimp only
      rw [massOf_addTo, h]
    · rw [if_neg hobs]
      exact ih _ h

theorem nextFold_total_pos (sim : Sim) (action observation : ℤ) :
    ∀ (l : List (ℤ × ℚ)) (acc : List (ℤ × ℚ) × ℚ),
      (∀ sp ∈ l, 0 < sp.2) → 0 ≤ acc.2 →
      ((∃ sp ∈ l, (sim.step sp.1 action).obs = observation) ∨ 0 < acc.2) →
      0 < (NextBeliefFold sim action observation acc l).2 := by
  intro l
  induction l with
  | nil =>
    intro acc _ _ hex
    rcases hex with ⟨sp, hmem, _⟩ | hpos
    · cases hmem
    · exact hpos
  | cons sp rest ih =>
    intro acc hpos hnn hex
    rw [NextBeliefFold]
    by_cases hobs : (sim.step sp.1 action).obs = observation
    · rw [if_pos hobs]
      refine ih _ (fun sp2 h2 => hpos sp2 (List.mem_cons_of_mem _ h2)) ?_
        (Or.inr ?_)
      · dsimp only
        exact add_nonneg hnn (le_of_lt (hpos sp (List.mem_cons_self _ _)))
      · dsimp only
        exact add_pos_of_nonneg_of_pos hnn (hpos sp (List.mem_cons_self _ _))
    · rw [if_neg hobs]
      refine ih _ (fun sp2 h2 => hpos sp2 (List.mem_cons_of_mem _ h2)) hnn ?_
      rcases hex with ⟨sp2, hmem2, hobs2⟩ | hpos2
      · rcases List.mem_cons.mp hmem2 with rfl | hmem3
        · exact absurd hobs2 hobs
        · exact Or.inl ⟨sp2, hmem3, hobs2⟩
      · exact Or.inr hpos2

/-- Claim C10.  `NextBelief` is total and the normalising division is
harmless: when no belief entry produces the observation it returns the empty
distribution (nothing is ever divided), and when the belief is strictly
positive and some entry produces the observation, the returned probabilities
sum to 1. -/
theorem NextBelief_total (sim : Sim) (belief : List (ℤ × ℚ))
    (action observation : ℤ) :
    ((∀ sp ∈ belief, (sim.step sp.1 action).obs ≠ observation) →
      NextBelief sim belief action observation = []) ∧
    ((∀ sp ∈ belief, 0 < sp.2) →
      (∃ sp ∈ belief, (sim.step sp.1 action).obs = observation) →
      massOf (NextBelief sim belief action observation) = 1) := by
  constructor
  · intro h
    unfold NextBelief NextBeliefAcc
    rw [nextFold_no_match sim action observation belief ([], 0) h]
    rfl
  · intro hpos hex
    have hmass := nextFold_mass sim action observation belief ([], 0) rfl
    have htot := nextFold_total_pos sim action observation belief ([], 0) hpos
      le_rfl (Or.inl hex)
    unfold NextBelief NextBeliefAcc
    rw [massOf_map_div]
    unfold NextBeliefAcc at hmass htot
    rw [hmass]
    exact div_self (ne_of_gt htot)

/-- Witness for `NextBelief_total`: a one-state belief whose step emits the
requested observation yields a normalised next belief. -/
theorem NextBelief_total_witness :
    massOf (NextBelief simZero [(0, 1)] 0 0) = 1 :=
  (NextBelief_total simZero [(0, 1)] 0 0).2
    (by
      intro sp hsp
      rw [List.mem_singleton.mp hsp]
      norm_num)
    ⟨(0, 1), List.mem_singleton.mpr rfl, rfl⟩

end MCVI
